import Mathlib

/-!
Verification of the hkdf-sha512 crate (src/src/lib.rs): HKDF (RFC 5869)
specialized to a 64-byte-digest hash, exposing `extract` and `expand` as
free functions and through a zero-size wrapper type `Hkdf`.

Byte sequences are modelled as `List Nat`; the caller-owned mutable output
buffer `out : &mut Vec<u8>` is modelled by passing the incoming buffer in
and returning the buffer's final contents.

The underlying HMAC-over-SHA-512 primitive is an external collaborator
(the spec calls it as a black box and does not reimplement it); it is
modelled as an abstract parameter `hmac : Bytes → Bytes → Bytes` taking
the key first and the message second, assumed where needed to produce
64-byte digests.
-/

abbrev Bytes := List Nat

/-- Source constant `SHA512_OUTPUT_BYTES_LENGTH : usize = 64`. -/
def SHA512_OUTPUT_BYTES_LENGTH : Nat := 64

/-- Source `copy_into_cleared(src, dst)`: clears `dst`, then extends the
cleared buffer with the contents of `src`; the final contents are `src`. -/
def copy_into_cleared (src : Bytes) (dst : Bytes) : Bytes :=
  dst.take 0 ++ src

/-- Modelled from the spec: the external collaborator `crypto::hkdf::hkdf_extract`
is not part of this repository. Per the spec, HMAC(key = secret,
message = seed) is computed and written into `out`, replacing its
contents entirely with the digest bytes. -/
def hkdf_extract (hmac : Bytes → Bytes → Bytes) (seed secret : Bytes)
    (out : Bytes) : Bytes :=
  hmac secret seed

/-- Buffer state of `out` after the length-normalisation step at the top of
the source function `extract`, before the HMAC digest is written. -/
def extract_pre (out : Bytes) : Bytes :=
  if out.length ≠ SHA512_OUTPUT_BYTES_LENGTH then
    copy_into_cleared (List.replicate SHA512_OUTPUT_BYTES_LENGTH 0) out
  else
    out

/-- Source free function `extract(seed, secret, out)`: resets `out` to a
zero-filled 64-byte buffer when its length is not 64, then runs
`hkdf_extract` into it. -/
def extract (hmac : Bytes → Bytes → Bytes) (seed secret : Bytes)
    (out : Bytes) : Bytes :=
  hkdf_extract hmac seed secret (extract_pre out)

/-- Modelled from the spec: one iteration step of the external collaborator
`crypto::hkdf::hkdf_expand` (not part of this repository). Given the
previous block `t` and the number `i` of blocks already produced, it
computes the next block T(i+1) = HMAC(key = prk, message = t || info ||
(i+1) as a single byte), writes the first `rem` bytes of it into the
output, and recurses on the remaining length. -/
def expandGo (hmac : Bytes → Bytes → Bytes) (prk info : Bytes)
    (t : Bytes) (i : Nat) (rem : Nat) : Bytes :=
  if h : rem = 0 then []
  else
    let tn := hmac prk (t ++ info ++ [(i + 1) % 256])
    tn.take rem ++ expandGo hmac prk info tn (i + 1) (rem - 64)
termination_by rem
decreasing_by omega

/-- Modelled from the spec: the external collaborator
`crypto::hkdf::hkdf_expand` is not part of this repository. Per the spec,
the number of output bytes is dictated by the current length of `out`,
and the blocks T(1), T(2), ... are produced iteratively starting from
T(0) = empty, writing into `out`. -/
def hkdf_expand (hmac : Bytes → Bytes → Bytes) (prk info : Bytes)
    (out : Bytes) : Bytes :=
  expandGo hmac prk info [] 0 out.length

/-- Source free function `expand(prk, info, out)`: forwards to
`hkdf_expand` with the SHA-512 digest. -/
def expand (hmac : Bytes → Bytes → Bytes) (prk info : Bytes)
    (out : Bytes) : Bytes :=
  hkdf_expand hmac prk info out

/-- The RFC 5869 block sequence as stated in the spec: T(0) is empty and
T(i) = HMAC(key = prk, message = T(i-1) || info || i) with the block
index encoded as a single byte. -/
def T (hmac : Bytes → Bytes → Bytes) (prk info : Bytes) : Nat → Bytes
  | 0 => []
  | i + 1 => hmac prk (T hmac prk info i ++ info ++ [(i + 1) % 256])

/-- Concatenation T(1) || T(2) || ... || T(n) of the first n blocks. -/
def streamConcat (hmac : Bytes → Bytes → Bytes) (prk info : Bytes) :
    Nat → Bytes
  | 0 => []
  | n + 1 => streamConcat hmac prk info n ++ T hmac prk info (n + 1)

/-- Concatenation T(i+1) || T(i+2) || ... || T(i+m) of m blocks starting
after block i; used to relate the iterative expansion to the
concatenated stream. -/
def streamFrom (hmac : Bytes → Bytes → Bytes) (prk info : Bytes)
    (i : Nat) : Nat → Bytes
  | 0 => []
  | m + 1 => T hmac prk info (i + 1) ++ streamFrom hmac prk info (i + 1) m

/-- Number of HMAC blocks needed for L output bytes: ceil(L / 64). -/
def numBlocks (L : Nat) : Nat := (L + 63) / 64

/-- The RFC 5869 Expand output as the spec states it: concatenate
T(1) || ... || T(n) with n = ceil(L / 64) and truncate to L bytes. -/
def expandSpec (hmac : Bytes → Bytes → Bytes) (prk info : Bytes)
    (L : Nat) : Bytes :=
  (streamConcat hmac prk info (numBlocks L)).take L

/-- Root-level alias for the free function `extract`, needed because inside
the declaration of the method `Hkdf.extract` the bare name `extract` would
resolve to the method itself. -/
def extractFree : (Bytes → Bytes → Bytes) → Bytes → Bytes → Bytes → Bytes :=
  extract

/-- Root-level alias for the free function `expand`, needed because inside
the declaration of the method `Hkdf.expand` the bare name `expand` would
resolve to the method itself. -/
def expandFree : (Bytes → Bytes → Bytes) → Bytes → Bytes → Bytes → Bytes :=
  expand

/-- Source zero-size wrapper struct `Hkdf`. -/
structure Hkdf where

/-- Source method `Hkdf::extract`: forwards to the free function. -/
def Hkdf.extract (self : Hkdf) (hmac : Bytes → Bytes → Bytes)
    (seed secret : Bytes) (out : Bytes) : Bytes :=
  extractFree hmac seed secret out

/-- Source method `Hkdf::expand`: forwards to the free function. -/
def Hkdf.expand (self : Hkdf) (hmac : Bytes → Bytes → Bytes)
    (prk info : Bytes) (out : Bytes) : Bytes :=
  expandFree hmac prk info out

/-- Concrete HMAC stand-in used to instantiate witness theorems: a total
function on byte lists whose digests have length 64 and depend on both
arguments. -/
def hmacZ (key msg : Bytes) : Bytes :=
  List.replicate 64 ((key.sum + msg.sum + msg.length) % 256)

theorem hmacZ_length (key msg : Bytes) : (hmacZ key msg).length = 64 := by
  simp [hmacZ]

theorem expandGo_zero (hmac : Bytes → Bytes → Bytes) (prk info t : Bytes)
    (i : Nat) : expandGo hmac prk info t i 0 = [] := by
  rw [expandGo]
  simp

theorem streamFrom_snoc (hmac : Bytes → Bytes → Bytes) (prk info : Bytes) :
    ∀ m i, streamFrom hmac prk info i (m + 1)
      = streamFrom hmac prk info i m ++ T hmac prk info (i + m + 1) := by
  intro m
  induction m with
  | zero => intro i; simp [streamFrom]
  | succ m ih =>
    intro i
    rw [streamFrom, ih (i + 1), streamFrom]
    simp only [streamFrom, List.append_assoc]
    have : i + 1 + m + 1 = i + (m + 1) + 1 := by omega
    rw [this]

theorem streamConcat_eq_streamFrom (hmac : Bytes → Bytes → Bytes)
    (prk info : Bytes) :
    ∀ n, streamConcat hmac prk info n = streamFrom hmac prk info 0 n := by
  intro n
  induction n with
  | zero => rfl
  | succ n ih =>
    rw [streamConcat, ih, streamFrom_snoc]
    simp

theorem streamFrom_length (hmac : Bytes → Bytes → Bytes)
    (H : ∀ k m, (hmac k m).length = 64) (prk info : Bytes) :
    ∀ m i, (streamFrom hmac prk info i m).length = 64 * m := by
  intro m
  induction m with
  | zero => intro i; rfl
  | succ m ih =>
    intro i
    rw [streamFrom]
    simp only [List.length_append, ih (i + 1)]
    rw [T]
    rw [H]
    omega

theorem numBlocks_succ (rem : Nat) (h : rem ≠ 0) :
    numBlocks rem = numBlocks (rem - 64) + 1 := by
  simp only [numBlocks]
  omega

theorem expandGo_spec (hmac : Bytes → Bytes → Bytes)
    (H : ∀ k m, (hmac k m).length = 64) (prk info : Bytes) :
    ∀ rem i, expandGo hmac prk info (T hmac prk info i) i rem
      = (streamFrom hmac prk info i (numBlocks rem)).take rem := by
  intro rem
  induction rem using Nat.strong_induction_on with
  | _ rem ih =>
    intro i
    by_cases h : rem = 0
    · subst h
      rw [expandGo]
      simp [numBlocks, streamFrom]
    · rw [expandGo, dif_neg h]
      have hrec : expandGo hmac prk info (T hmac prk info (i + 1)) (i + 1)
          (rem - 64)
          = (streamFrom hmac prk info (i + 1) (numBlocks (rem - 64))).take
            (rem - 64) :=
        ih (rem - 64) (by omega) (i + 1)
      show (T hmac prk info (i + 1)).take rem
          ++ expandGo hmac prk info (T hmac prk info (i + 1)) (i + 1) (rem - 64)
          = (streamFrom hmac prk info i (numBlocks rem)).take rem
      rw [hrec, numBlocks_succ rem h, streamFrom,
        List.take_append_eq_append_take]
      have hlen : (T hmac prk info (i + 1)).length = 64 := by
        rw [T]; exact H prk (T hmac prk info i ++ info ++ [(i + 1) % 256])
      rw [hlen]

theorem hkdf_expand_spec (hmac : Bytes → Bytes → Bytes)
    (H : ∀ k m, (hmac k m).length = 64) (prk info out : Bytes) :
    hkdf_expand hmac prk info out = expandSpec hmac prk info out.length := by
  have h0 : hkdf_expand hmac prk info out
      = expandGo hmac prk info (T hmac prk info 0) 0 out.length := rfl
  rw [h0, expandGo_spec hmac H prk info out.length 0, expandSpec,
    streamConcat_eq_streamFrom]

theorem expandSpec_length (hmac : Bytes → Bytes → Bytes)
    (H : ∀ k m, (hmac k m).length = 64) (prk info : Bytes) (L : Nat) :
    (expandSpec hmac prk info L).length = L := by
  rw [expandSpec, List.length_take, streamConcat_eq_streamFrom,
    streamFrom_length hmac H prk info]
  simp only [numBlocks]
  omega

theorem hkdf_expand_length (hmac : Bytes → Bytes → Bytes)
    (H : ∀ k m, (hmac k m).length = 64) (prk info out : Bytes) :
    (hkdf_expand hmac prk info out).length = out.length := by
  rw [hkdf_expand_spec hmac H prk info out, expandSpec_length hmac H prk info]

theorem expandSpec_truncate (hmac : Bytes → Bytes → Bytes)
    (H : ∀ k m, (hmac k m).length = 64) (prk info : Bytes) (k : Nat) :
    expandSpec hmac prk info k = (expandSpec hmac prk info (k + 64)).take k := by
  rw [expandSpec, expandSpec, List.take_take]
  have hmin : min k (k + 64) = k := by omega
  rw [hmin]
  have hnb : numBlocks (k + 64) = numBlocks k + 1 := by
    simp only [numBlocks]; omega
  rw [hnb, streamConcat]
  have hle : k ≤ (streamConcat hmac prk info (numBlocks k)).length := by
    rw [streamConcat_eq_streamFrom, streamFrom_length hmac H prk info]
    simp only [numBlocks]
    omega
  rw [List.take_append_of_le_length hle]

/-- Claim C1: for every seed, secret and initial out buffer, after
`extract(seed, secret, out)` the buffer contains exactly the 64-byte
HMAC digest with the secret as key and the seed as message (the RFC 5869
Extract PRK). -/
theorem extract_computes_hmac (hmac : Bytes → Bytes → Bytes)
    (H : ∀ k m, (hmac k m).length = 64) (seed secret out : Bytes) :
    extract hmac seed secret out = hmac secret seed ∧
    (extract hmac seed secret out).length = 64 :=
  ⟨rfl, H secret seed⟩

/-- Witness for C1 at concrete inputs. -/
theorem extract_computes_hmac_witness :
    extract hmacZ [1, 2] [3] [] = hmacZ [3] [1, 2] ∧
    (extract hmacZ [1, 2] [3] []).length = 64 :=
  extract_computes_hmac hmacZ (fun k m => hmacZ_length k m) [1, 2] [3] []

/-- Claim C2: for every prk, info and out of length L,
`expand(prk, info, out)` writes into out the first L bytes of
T(1) || T(2) || ... || T(n) with n = ceil(L / 64), T(0) empty and
T(i) = HMAC(key = prk, message = T(i-1) || info || i) with the block
index encoded as a single byte. -/
theorem expand_matches_rfc_formula (hmac : Bytes → Bytes → Bytes)
    (H : ∀ k m, (hmac k m).length = 64) (prk info out : Bytes) :
    expand hmac prk info out
      = (streamConcat hmac prk info (numBlocks out.length)).take out.length :=
  hkdf_expand_spec hmac H prk info out

/-- Witness for C2 at concrete inputs of length 70. -/
theorem expand_matches_rfc_formula_witness :
    expand hmacZ [1] [2] (List.replicate 70 0)
      = (streamConcat hmacZ [1] [2]
          (numBlocks (List.replicate 70 (0 : Nat)).length)).take
          (List.replicate 70 (0 : Nat)).length :=
  expand_matches_rfc_formula hmacZ (fun k m => hmacZ_length k m) [1] [2]
    (List.replicate 70 0)

/-- Claim C3: after `extract(seed, secret, out)` the buffer has length
exactly 64; when the incoming length is not 64 the buffer is first reset
to a zero-filled 64-byte buffer, discarding prior contents, before the
HMAC result is written (and a 64-byte buffer is passed through as is). -/
theorem extract_output_length_and_reset (hmac : Bytes → Bytes → Bytes)
    (H : ∀ k m, (hmac k m).length = 64) (seed secret out : Bytes) :
    (extract hmac seed secret out).length = 64 ∧
    extract hmac seed secret out
      = hkdf_extract hmac seed secret (extract_pre out) ∧
    (out.length ≠ 64 → extract_pre out = List.replicate 64 0) ∧
    (out.length = 64 → extract_pre out = out) := by
  refine ⟨H secret seed, rfl, ?_, ?_⟩
  · intro hne
    simp [extract_pre, SHA512_OUTPUT_BYTES_LENGTH, hne, copy_into_cleared]
  · intro heq
    simp [extract_pre, SHA512_OUTPUT_BYTES_LENGTH, heq]

/-- Witness for C3 at a concrete wrongly-sized buffer. -/
theorem extract_output_length_and_reset_witness :
    (extract hmacZ [5] [6] [9, 9]).length = 64 ∧
    extract hmacZ [5] [6] [9, 9]
      = hkdf_extract hmacZ [5] [6] (extract_pre [9, 9]) ∧
    (([9, 9] : Bytes).length ≠ 64 → extract_pre [9, 9] = List.replicate 64 0) ∧
    (([9, 9] : Bytes).length = 64 → extract_pre [9, 9] = [9, 9]) :=
  extract_output_length_and_reset hmacZ (fun k m => hmacZ_length k m)
    [5] [6] [9, 9]

/-- Claim C4: `expand(prk, info, out)` leaves the length of out unchanged;
only the contents change. -/
theorem expand_preserves_length (hmac : Bytes → Bytes → Bytes)
    (H : ∀ k m, (hmac k m).length = 64) (prk info out : Bytes) :
    (expand hmac prk info out).length = out.length :=
  hkdf_expand_length hmac H prk info out

/-- Witness for C4 at a concrete 70-byte buffer. -/
theorem expand_preserves_length_witness :
    (expand hmacZ [1] [2] (List.replicate 70 3)).length
      = (List.replicate 70 (3 : Nat)).length :=
  expand_preserves_length hmacZ (fun k m => hmacZ_length k m) [1] [2]
    (List.replicate 70 3)

/-- Claim C5: truncation consistency: expanding into a buffer of length k
yields exactly the first k bytes of expanding (same prk and info) into a
buffer of length k + 64. -/
theorem expand_truncation_consistent (hmac : Bytes → Bytes → Bytes)
    (H : ∀ k m, (hmac k m).length = 64) (prk info : Bytes) (k : Nat)
    (out1 out2 : Bytes) (h1 : out1.length = k) (h2 : out2.length = k + 64) :
    expand hmac prk info out1 = (expand hmac prk info out2).take k := by
  show hkdf_expand hmac prk info out1
    = (hkdf_expand hmac prk info out2).take k
  rw [hkdf_expand_spec hmac H prk info out1, hkdf_expand_spec hmac H prk info
    out2, h1, h2]
  exact expandSpec_truncate hmac H prk info k

/-- Witness for C5 at k = 70. -/
theorem expand_truncation_consistent_witness :
    expand hmacZ [1] [2] (List.replicate 70 0)
      = (expand hmacZ [1] [2] (List.replicate 134 0)).take 70 :=
  expand_truncation_consistent hmacZ (fun k m => hmacZ_length k m) [1] [2] 70
    (List.replicate 70 0) (List.replicate 134 0) (by simp) (by simp)

/-- Claim C6: extract and expand are total and never signal failure; expand
performs no bound check on the requested output length, so even a request
larger than 255 blocks of 64 bytes is served in full, and past block 255
the single-byte counter simply wraps (block 256 carries counter byte 0). -/
theorem extract_expand_total_no_bound_check (hmac : Bytes → Bytes → Bytes)
    (H : ∀ k m, (hmac k m).length = 64) (seed secret prk info out : Bytes)
    (hbig : 255 * 64 < out.length) :
    (extract hmac seed secret out).length = 64 ∧
    (expand hmac prk info out).length = out.length ∧
    T hmac prk info (255 + 1)
      = hmac prk (T hmac prk info 255 ++ info ++ [0]) := by
  refine ⟨H secret seed, hkdf_expand_length hmac H prk info out, ?_⟩
  rw [T]

/-- Witness for C6 at a buffer one byte past the RFC 5869 limit. -/
theorem extract_expand_total_no_bound_check_witness :
    (extract hmacZ [1] [2] (List.replicate 16321 0)).length = 64 ∧
    (expand hmacZ [3] [4] (List.replicate 16321 0)).length
      = (List.replicate 16321 (0 : Nat)).length ∧
    T hmacZ [3] [4] (255 + 1)
      = hmacZ [3] (T hmacZ [3] [4] 255 ++ [4] ++ [0]) :=
  extract_expand_total_no_bound_check hmacZ (fun k m => hmacZ_length k m)
    [1] [2] [3] [4] (List.replicate 16321 0)
    (by simp only [List.length_replicate]; norm_num)

/-- Claim C7: determinism: running extract again with the same seed and
secret on the buffer produced by a first call leaves the same contents,
and likewise running expand again with the same prk and info on the
buffer produced by a first call leaves the same contents. -/
theorem extract_expand_deterministic (hmac : Bytes → Bytes → Bytes)
    (H : ∀ k m, (hmac k m).length = 64) (seed secret prk info out1 out2 :
      Bytes) :
    extract hmac seed secret (extract hmac seed secret out1)
      = extract hmac seed secret out1 ∧
    expand hmac prk info (expand hmac prk info out2)
      = expand hmac prk info out2 := by
  constructor
  · rfl
  · show expandGo hmac prk info [] 0 (expand hmac prk info out2).length
      = expandGo hmac prk info [] 0 out2.length
    have hl : (expand hmac prk info out2).length = out2.length :=
      hkdf_expand_length hmac H prk info out2
    rw [hl]

/-- Witness for C7 at concrete inputs. -/
theorem extract_expand_deterministic_witness :
    extract hmacZ [1] [2] (extract hmacZ [1] [2] [7])
      = extract hmacZ [1] [2] [7] ∧
    expand hmacZ [3] [4] (expand hmacZ [3] [4] [8, 8, 8])
      = expand hmacZ [3] [4] [8, 8, 8] :=
  extract_expand_deterministic hmacZ (fun k m => hmacZ_length k m)
    [1] [2] [3] [4] [7] [8, 8, 8]

/-- Claim C8: the methods of the wrapper type forward exactly to the free
functions, and any two Hkdf instances are equal, hence interchangeable. -/
theorem wrapper_forwards_and_interchangeable (h h1 h2 : Hkdf)
    (hmac : Bytes → Bytes → Bytes) (seed secret prk info out : Bytes) :
    h.extract hmac seed secret out = extract hmac seed secret out ∧
    h.expand hmac prk info out = expand hmac prk info out ∧
    h1 = h2 :=
  ⟨rfl, rfl, rfl⟩

/-- Claim C9: the output is independent of the prior contents of the output
buffer: extract gives the same final contents for any two initial
buffers (even of different lengths), and expand gives the same final
contents for any two initial buffers of the same length. -/
theorem output_independent_of_prior_contents (hmac : Bytes → Bytes → Bytes)
    (seed secret prk info out1 out2 : Bytes) :
    extract hmac seed secret out1 = extract hmac seed secret out2 ∧
    (out1.length = out2.length →
      expand hmac prk info out1 = expand hmac prk info out2) := by
  constructor
  · rfl
  · intro hlen
    show expandGo hmac prk info [] 0 out1.length
      = expandGo hmac prk info [] 0 out2.length
    rw [hlen]

/-- Witness for C9: buffers with different contents (and, for extract,
different lengths). -/
theorem output_independent_of_prior_contents_witness :
    extract hmacZ [7] [8] [1, 2, 3] = extract hmacZ [7] [8] [4, 5, 6] ∧
    expand hmacZ [7] [8] [1, 2, 3] = expand hmacZ [7] [8] [4, 5, 6] :=
  ⟨(output_independent_of_prior_contents hmacZ [7] [8] [7] [8]
      [1, 2, 3] [4, 5, 6]).1,
   (output_independent_of_prior_contents hmacZ [7] [8] [7] [8]
      [1, 2, 3] [4, 5, 6]).2 rfl⟩

/-- Claim C10: expanding into an empty buffer is a well-defined no-op: zero
HMAC blocks are needed and the buffer stays empty. -/
theorem expand_empty_out_noop (hmac : Bytes → Bytes → Bytes)
    (prk info : Bytes) :
    expand hmac prk info [] = [] ∧ numBlocks (List.length ([] : Bytes)) = 0 :=
  ⟨expandGo_zero hmac prk info [] 0, rfl⟩
